import Mathlib

/-!
Verification development for the jiaozifs object model and diff engine.

The core (Tree Builder, Commit Manager, Diff Engine) is shallowly embedded:
hashes are ideal content addresses (`List Nat` canonical serializations of a
collision-free digest), trees are hash-identified values, and database tables
are lists of rows.  Definitions marked `Modelled from the spec:` embed
components of the repository whose implementation files are not in the sampled
sources (only their tests and callers are); they follow the specification text
for that component.  All other definitions are translated from the sources.
-/

/-- Error taxonomy of the core (spec section 7) together with
`ErrRepoIDMisMatch` from models and an injected object-store write failure
used to model a failing persist step. -/
inductive Err where
  | notFound
  | invalidPath
  | conflict
  | repoIDMisMatch
  | putFailed
  deriving DecidableEq, Repr

/-- A blob: a file content reference, identified by the digest of its
content (`hash`) and carrying a byte size. -/
structure Blob where
  hash : List Nat
  size : Nat
  deriving DecidableEq, Repr

/-- Modelled from the spec: a hash-identified tree value.  A `TreeNode` is a
directory snapshot holding a canonically ordered entry list; each entry names
either a blob child or a subtree child.  Because the object store is
content-addressed and write-once, a child hash determines the child value, so
the embedding inlines children as values. -/
inductive Node where
  | blob (h : List Nat) (size : Nat)
  | tree (entries : List (String × Node))

/-- Byte-level lexicographic comparison of names, as used for the canonical
(sorted) order of tree entries. -/
def strLtAux : List Char → List Char → Bool
  | [], [] => false
  | [], _ :: _ => true
  | _ :: _, [] => false
  | a :: as, b :: bs =>
    if a.toNat < b.toNat then true
    else if b.toNat < a.toNat then false
    else strLtAux as bs

def strLt (a b : String) : Bool := strLtAux a.data b.data

/-- Split a slash-separated path into its ordered segments
(Go `strings.Split(path, "/")`). -/
def splitPathAux : List Char → List Char → List String
  | [], acc => [String.mk acc.reverse]
  | c :: rest, acc =>
    if c = '/' then String.mk acc.reverse :: splitPathAux rest []
    else splitPathAux rest (c :: acc)

def splitPath (s : String) : List String := splitPathAux s.data []

/-- Look a name up in a tree's entry list. -/
def lookupEntry : List (String × Node) → String → Option Node
  | [], _ => none
  | (m, d) :: rest, n => if m = n then some d else lookupEntry rest n

/-- Insert or overwrite the entry named `name`, keeping the entry list in
canonical sorted order. -/
def insertEntry : List (String × Node) → String → Node → List (String × Node)
  | [], name, child => [(name, child)]
  | (m, d) :: rest, name, child =>
    if strLt name m then (name, child) :: (m, d) :: rest
    else if name = m then (name, child) :: rest
    else (m, d) :: insertEntry rest name child

/-- Modelled from the spec: the recursive walk of `AddLeaf` over the path
segments.  The terminal segment inserts or overwrites a blob entry; an
intermediate segment descends into the existing subtree (failing
`InvalidPath` when that child is a blob) or into a fresh empty subtree when
the child is absent, then the rebuilt child replaces the entry one level up. -/
def addLeafAux (entries : List (String × Node)) (segs : List String) (b : Blob) :
    Except Err (List (String × Node)) :=
  match segs with
  | [] => .error .invalidPath
  | [last] => .ok (insertEntry entries last (.blob b.hash b.size))
  | seg :: rest =>
    match lookupEntry entries seg with
    | some (.blob _ _) => .error .invalidPath
    | some (.tree es) =>
      match addLeafAux es rest b with
      | .error e => .error e
      | .ok es₁ => .ok (insertEntry entries seg (.tree es₁))
    | none =>
      match addLeafAux [] rest b with
      | .error e => .error e
      | .ok es₁ => .ok (insertEntry entries seg (.tree es₁))

/-- Modelled from the spec: the well-known empty root tree. -/
def EmptyRoot : Node := .tree []

/-- Modelled from the spec: `AddLeaf(root, path, blob) -> newRoot` splits
`path` by its separator and rebuilds only the nodes on the root-to-leaf
path. -/
def AddLeaf (root : Node) (path : String) (b : Blob) : Except Err Node :=
  match root with
  | .blob _ _ => .error .invalidPath
  | .tree es =>
    match addLeafAux es (splitPath path) b with
    | .error e => .error e
    | .ok es₁ => .ok (.tree es₁)

mutual
/-- Modelled from the spec: the content address of a node.  A blob's hash is
the digest of its content (stored in the blob); a tree's hash is the digest
of the canonical serialization of its entry list.  The digest is modelled as
an ideal (collision-free) one: the canonical serialization itself. -/
def nodeHash : Node → List Nat
  | .blob h _ => 0 :: h.length :: h
  | .tree es => 1 :: entriesHash es

def entriesHash : List (String × Node) → List Nat
  | [] => []
  | (n, c) :: rest =>
    let nm := n.data.map Char.toNat
    let ch := nodeHash c
    (nm.length :: nm) ++ (ch.length :: ch) ++ entriesHash rest
end

/-- One diff record kind. -/
inductive ChangeKind where
  | added
  | removed
  | modified
  deriving DecidableEq, Repr

/-- One diff record: a path and the kind of change at that path. -/
structure Change where
  path : String
  kind : ChangeKind
  deriving DecidableEq, Repr

mutual
/-- Modelled from the spec: compare the two children found under the same
name.  Equal hashes prune the subtree; two subtrees recurse with the extended
path prefix; otherwise (at least one child a blob, including a blob-vs-tree
type change) a single `Modified` record is emitted at that path. -/
def diffChild (path : String) (a b : Node) : List Change :=
  if nodeHash a = nodeHash b then []
  else
    match a, b with
    | .tree ea, .tree eb => diffEntries (path ++ "/") ea eb
    | _, _ => [{ path := path, kind := .modified }]

/-- Modelled from the spec: linear merge-join of two canonically sorted entry
lists.  A name only in the base emits `Removed`, a name only in the merge
side emits `Added`, and a name in both is handled by `diffChild`. -/
def diffEntries (pre : String) : List (String × Node) → List (String × Node) → List Change
  | [], [] => []
  | (na, _) :: as, [] =>
    { path := pre ++ na, kind := .removed } :: diffEntries pre as []
  | [], (nb, _) :: bs =>
    { path := pre ++ nb, kind := .added } :: diffEntries pre [] bs
  | (na, ca) :: as, (nb, cb) :: bs =>
    if strLt na nb then
      { path := pre ++ na, kind := .removed } :: diffEntries pre as ((nb, cb) :: bs)
    else if strLt nb na then
      { path := pre ++ nb, kind := .added } :: diffEntries pre ((na, ca) :: as) bs
    else
      diffChild (pre ++ na) ca cb ++ diffEntries pre as bs
end

/-- Modelled from the spec: `diffTree` at the two roots — equal root hashes
prune everything, otherwise the two entry lists are merge-joined from the
empty path prefix. -/
def diffNode (a b : Node) : List Change :=
  if nodeHash a = nodeHash b then []
  else
    match a, b with
    | .tree ea, .tree eb => diffEntries "" ea eb
    | _, _ => [{ path := "", kind := .modified }]

/-- An immutable history point: root tree, zero-or-one parent (the empty
hash standing for the absent parent of a root commit), author, message and
commit time. -/
structure Commit where
  root : Node
  parent : List Nat
  author : Nat
  message : String
  timestamp : Nat

/-- Modelled from the spec: the content address of a commit, the digest of
{tree hash, parent hash, author, message, timestamp}; again an ideal digest,
the canonical serialization itself. -/
def commitHash (c : Commit) : List Nat :=
  let rh := nodeHash c.root
  let msg := c.message.data.map Char.toNat
  2 :: (rh.length :: rh) ++ (c.parent.length :: c.parent) ++
    [c.author] ++ (msg.length :: msg) ++ [c.timestamp]

/-- A working state (WIP): the staged tree, its base tree, and the owning
ref and repository. -/
structure Wip where
  currentTree : Node
  parentTree : List Nat
  refID : Nat
  repositoryID : Nat

/-- A named, mutable pointer to a commit within one repository; the sole
mutable entity of the model. -/
structure Ref where
  name : String
  repositoryID : Nat
  commitHash : List Nat

/-- The state the Commit Manager acts on: the working-state store, the
reference store and the content-addressed commit object store. -/
structure World where
  wips : List (Nat × Wip)
  refs : List (Nat × Ref)
  objects : List (List Nat × Commit)

def assocWip : List (Nat × Wip) → Nat → Option Wip
  | [], _ => none
  | (k, v) :: rest, i => if k = i then some v else assocWip rest i

def assocRef : List (Nat × Ref) → Nat → Option Ref
  | [], _ => none
  | (k, v) :: rest, i => if k = i then some v else assocRef rest i

def assocObj : List (List Nat × Commit) → List Nat → Option Commit
  | [], _ => none
  | (k, v) :: rest, h => if k = h then some v else assocObj rest h

/-- Put an object into the content-addressed store.  The store is
write-once per hash with read-after-write consistency: a duplicate insert of
an identical hash re-associates the hash with the identical content and must
not error, so a put is modelled as a prepend. -/
def putObj (objects : List (List Nat × Commit)) (h : List Nat) (c : Commit) :
    List (List Nat × Commit) :=
  (h, c) :: objects

/-- Move the ref with id `i` to point at commit hash `h`. -/
def setRef : List (Nat × Ref) → Nat → List Nat → List (Nat × Ref)
  | [], _, _ => []
  | (k, r) :: rest, i, h =>
    if k = i then (k, { r with commitHash := h }) :: rest
    else (k, r) :: setRef rest i h

/-- The observation phase of `AddCommit` (spec steps 1–3): load the working
state (`NotFound` if absent), load the ref and record its current tip as the
new commit's parent, and build the commit value. -/
structure PendingCommit where
  refID : Nat
  observedTip : List Nat
  commit : Commit

/-- Modelled from the spec: steps 1–3 of `AddCommit` — load the WIP by id
(fail `NotFound` if absent), load the ref by id to obtain the observed tip,
and build the commit value from the staged tree, the observed tip, the user,
the message and the current time. -/
def addCommitObserve (w : World) (refID userID wipID : Nat) (msg : String)
    (now : Nat) : Except Err PendingCommit :=
  match assocWip w.wips wipID with
  | none => .error .notFound
  | some wip =>
    match assocRef w.refs refID with
    | none => .error .notFound
    | some ref =>
      .ok { refID := refID, observedTip := ref.commitHash,
            commit := { root := wip.currentTree, parent := ref.commitHash,
                        author := userID, message := msg, timestamp := now } }

/-- Modelled from the spec: steps 4–6 of `AddCommit` — persist the commit
object (the injected store may fail, in which case nothing changes), then
compare-and-swap the ref: the ref moves to the new commit hash only if its
stored tip still equals the observed tip, otherwise the call fails
`Conflict` and the ref is left unchanged (the persisted commit remains a
harmless unreferenced object). -/
def addCommitPublish (persistOk : Bool) (w : World) (p : PendingCommit) :
    World × Except Err Commit :=
  if persistOk then
    let h := commitHash p.commit
    let w₁ : World := { w with objects := putObj w.objects h p.commit }
    match assocRef w₁.refs p.refID with
    | none => (w₁, .error .notFound)
    | some ref =>
      if ref.commitHash = p.observedTip then
        ({ w₁ with refs := setRef w₁.refs p.refID h }, .ok p.commit)
      else (w₁, .error .conflict)
  else (w, .error .putFailed)

/-- Modelled from the spec: `AddCommit(refID, userID, workingStateID,
message)`, the sequential composition of the observation and publication
phases. -/
def AddCommit (persistOk : Bool) (w : World) (refID userID wipID : Nat)
    (msg : String) (now : Nat) : World × Except Err Commit :=
  match addCommitObserve w refID userID wipID msg now with
  | .error e => (w, .error e)
  | .ok p => addCommitPublish persistOk w p

/-- Modelled from the spec: `DiffCommit(baseHash, mergeHash)` — resolve both
hashes to commits (`NotFound` if either is absent from the object store) and
recursively diff their root trees. -/
def DiffCommit (objects : List (List Nat × Commit)) (baseHash mergeHash : List Nat) :
    Except Err (List Change) :=
  match assocObj objects baseHash with
  | none => .error .notFound
  | some base =>
    match assocObj objects mergeHash with
    | none => .error .notFound
    | some merge => .ok (diffNode base.root merge.root)

/-- A tag row (models/tag.go).  UUIDs are modelled as `Nat`, with `0` for
`uuid.Nil`. -/
structure Tag where
  hash : List Nat
  repositoryID : Nat
  name : String
  target : List Nat
  message : String
  deriving DecidableEq, Repr

/-- `TagRepo`: the tags table (a list of rows) together with the repository
id the repo was constructed with (models/tag.go `NewTagRepo`). -/
structure TagRepo where
  repositoryID : Nat
  rows : List Tag
  deriving DecidableEq, Repr

/-- `TagRepo.Insert` (models/tag.go): reject the tag with
`ErrRepoIDMisMatch` when its `RepositoryID` differs from the repo's;
otherwise insert the row and return the tag. -/
def TagRepo.Insert (t : TagRepo) (tag : Tag) : TagRepo × Except Err Tag :=
  if tag.repositoryID ≠ t.repositoryID then (t, .error .repoIDMisMatch)
  else ({ t with rows := t.rows ++ [tag] }, .ok tag)

/-- A repository row (models, part_000).  `description` is the nullable
column; timestamps are `Nat`. -/
structure Repository where
  id : Nat
  name : String
  ownerID : Nat
  head : String
  usePublicStorage : Bool
  storageAdapterParams : String
  storageNamespace : String
  description : Option String
  creatorID : Nat
  createdAt : Nat
  updatedAt : Nat
  deriving DecidableEq, Repr

/-- `UpdateRepoParams` (part_000): carries only the primary key and an
optional description. -/
structure UpdateRepoParams where
  id : Nat
  description : Option String
  deriving DecidableEq, Repr

/-- `DeleteRepoParams` (part_000): optional id, owner id and name filters;
a zero UUID or nil name means the filter is absent. -/
structure DeleteRepoParams where
  id : Nat
  ownerID : Nat
  name : Option String
  deriving DecidableEq, Repr

/-- `RepositoryRepo.UpdateByID` (part_000): an UPDATE of the model's
non-primary-key columns — only `description` — on the row whose primary key
matches, modelled over the table as a list of rows. -/
def RepositoryRepo.UpdateByID (rows : List Repository) (p : UpdateRepoParams) :
    List Repository :=
  rows.map fun r =>
    if r.id = p.id then { r with description := p.description } else r

/-- The WHERE clause built by `RepositoryRepo.Delete` (part_000): each
condition is added only when the corresponding parameter is non-zero
(non-nil for the name). -/
def matchesDelete (p : DeleteRepoParams) (r : Repository) : Bool :=
  (decide (p.id = 0) || decide (r.id = p.id)) &&
  (match p.name with
   | none => true
   | some n => decide (r.name = n)) &&
  (decide (p.ownerID = 0) || decide (r.ownerID = p.ownerID))

/-- `RepositoryRepo.Delete` (part_000): delete every row matched by the
filters and return the remaining table together with the number of rows
affected. -/
def RepositoryRepo.Delete (rows : List Repository) (p : DeleteRepoParams) :
    List Repository × Nat :=
  (rows.filter (fun r => !matchesDelete p r),
   (rows.filter (fun r => matchesDelete p r)).length)

/-! The canonical scenario of versionmgr/commit_test.go: two fixture trees
built with `AddLeaf`, committed on refs `feat/base` and `feat/merge`, then
diffed. -/

/-- The digest of a literal string content, as the test's
`hash.Hash(fileHash)` byte sequences. -/
def strHash (s : String) : List Nat := s.data.map Char.toNat

/-- A fixture blob as built by `makeRoot`: content hash and size 10. -/
def blobOf (s : String) : Blob := { hash := strHash s, size := 10 }

/-- Build a fixture root by inserting each (path, content) with `AddLeaf`
starting from `EmptyRoot`, as `makeRoot` does. -/
def makeRoot : List (String × String) → Except Err Node
  | [] => .ok EmptyRoot
  | files => go EmptyRoot files
where
  go (root : Node) : List (String × String) → Except Err Node
    | [] => .ok root
    | (p, content) :: rest =>
      match AddLeaf root p (blobOf content) with
      | .error e => .error e
      | .ok root₁ => go root₁ rest

/-- The initial world of the test: two WIPs staging the two fixture roots,
and the refs `feat/base` and `feat/merge`, both starting at tip `"a"`. -/
def scenarioWorld (rootA rootB : Node) : World :=
  { wips := [(1, { currentTree := rootA, parentTree := strHash "mock",
                   refID := 10, repositoryID := 100 }),
             (2, { currentTree := rootB, parentTree := strHash "mock",
                   refID := 11, repositoryID := 100 })],
    refs := [(10, { name := "feat/base", repositoryID := 100,
                    commitHash := strHash "a" }),
             (11, { name := "feat/merge", repositoryID := 100,
                    commitHash := strHash "a" })],
    objects := [] }

/-- The full pipeline of `TestCommitOp_DiffCommit`: build both roots, commit
each on its ref, and diff the two commit hashes. -/
def diffScenario : Except Err (List Change) :=
  match makeRoot [("a.txt", "a"), ("b/c.txt", "c"), ("b/e.txt", "e1")] with
  | .error e => .error e
  | .ok rootA =>
    match makeRoot [("a.txt", "a"), ("b/d.txt", "d"), ("b/e.txt", "e2")] with
    | .error e => .error e
    | .ok rootB =>
      let w₀ := scenarioWorld rootA rootB
      match AddCommit true w₀ 10 5 1 "base commit" 1000 with
      | (_, .error e) => .error e
      | (w₁, .ok commitA) =>
        match AddCommit true w₁ 11 5 2 "merge commit" 1001 with
        | (_, .error e) => .error e
        | (w₂, .ok commitB) =>
          DiffCommit w₂.objects (commitHash commitA) (commitHash commitB)

/-- The claim's characterization of the `InvalidPath` condition, following
the specification's words: some non-terminal segment of the path resolves to
a blob entry in the current tree (a descent into a file); a missing child
never does, since the builder then descends into fresh empty subtrees. -/
def descendsIntoBlob (entries : List (String × Node)) (segs : List String) : Bool :=
  match segs with
  | [] => false
  | [_] => false
  | seg :: rest =>
    match lookupEntry entries seg with
    | some (.blob _ _) => true
    | some (.tree es) => descendsIntoBlob es rest
    | none => false

/-- A concrete object store holding two commits whose roots differ only by a
blob-vs-tree type change at path `p`. -/
def typeChangeBase : Commit :=
  { root := .tree [("p", .blob [1] 1)], parent := [], author := 0,
    message := "", timestamp := 0 }

def typeChangeMerge : Commit :=
  { root := .tree [("p", .tree [("q", .blob [2] 1)])], parent := [],
    author := 0, message := "", timestamp := 0 }

def typeChangeStore : List (List Nat × Commit) :=
  [([0], typeChangeBase), ([1], typeChangeMerge)]

/-! ### Supporting lemmas -/

lemma strLtAux_self (l : List Char) : strLtAux l l = false := by
  induction l with
  | nil => rfl
  | cons a as ih => simp [strLtAux, ih]

lemma strLt_self (s : String) : strLt s s = false := by
  simp [strLt, strLtAux_self]

lemma insertEntry_insertEntry (e : List (String × Node)) (n : String)
    (c d : Node) : insertEntry (insertEntry e n c) n d = insertEntry e n d := by
  induction e with
  | nil => simp [insertEntry, strLt_self]
  | cons hd rest ih =>
    obtain ⟨m, dd⟩ := hd
    by_cases h₁ : strLt n m = true
    · simp [insertEntry, h₁, strLt_self]
    · by_cases h₂ : n = m
      · subst h₂
        simp [insertEntry, h₁, strLt_self]
      · simp [insertEntry, h₁, h₂, ih]

lemma lookupEntry_insertEntry_self (e : List (String × Node)) (n : String)
    (c : Node) : lookupEntry (insertEntry e n c) n = some c := by
  induction e with
  | nil => simp [insertEntry, lookupEntry]
  | cons hd rest ih =>
    obtain ⟨m, dd⟩ := hd
    by_cases h₁ : strLt n m = true
    · simp [insertEntry, h₁, lookupEntry]
    · by_cases h₂ : n = m
      · subst h₂
        simp [insertEntry, h₁, lookupEntry]
      · have h₃ : m ≠ n := fun hmn => h₂ hmn.symm
        simp [insertEntry, h₁, h₂, lookupEntry, h₃, ih]

lemma addLeafAux_idem (b : Blob) :
    ∀ (segs : List String) (entries entries₁ : List (String × Node)),
      addLeafAux entries segs b = .ok entries₁ →
      addLeafAux entries₁ segs b = .ok entries₁ := by
  intro segs
  induction segs with
  | nil => intro entries entries₁ h; simp [addLeafAux] at h
  | cons seg rest ih =>
    intro entries entries₁ h
    cases rest with
    | nil =>
      simp [addLeafAux] at h ⊢
      rw [← h, insertEntry_insertEntry]
    | cons r rs =>
      simp only [addLeafAux] at h
      cases hl : lookupEntry entries seg with
      | none =>
        simp only [hl] at h
        cases ha : addLeafAux [] (r :: rs) b with
        | error e => simp only [ha] at h; exact Except.noConfusion h
        | ok es₁ =>
          simp only [ha] at h
          have he : entries₁ = insertEntry entries seg (.tree es₁) := by
            simpa using h.symm
          subst he
          simp only [addLeafAux, lookupEntry_insertEntry_self, ih [] es₁ ha,
            insertEntry_insertEntry]
      | some node =>
        cases node with
        | blob bh bs =>
          simp only [hl] at h
          exact Except.noConfusion h
        | tree es =>
          simp only [hl] at h
          cases ha : addLeafAux es (r :: rs) b with
          | error e => simp only [ha] at h; exact Except.noConfusion h
          | ok es₁ =>
            simp only [ha] at h
            have he : entries₁ = insertEntry entries seg (.tree es₁) := by
              simpa using h.symm
            subst he
            simp only [addLeafAux, lookupEntry_insertEntry_self, ih es es₁ ha,
              insertEntry_insertEntry]

lemma splitPathAux_ne_nil (cs : List Char) : ∀ acc, splitPathAux cs acc ≠ [] := by
  induction cs with
  | nil => intro acc; simp [splitPathAux]
  | cons c rest ih =>
    intro acc
    by_cases hc : c = '/'
    · simp [splitPathAux, hc]
    · simp [splitPathAux, hc, ih]

lemma splitPath_ne_nil (s : String) : splitPath s ≠ [] :=
  splitPathAux_ne_nil s.data []

lemma addLeafAux_nil_ok (b : Blob) :
    ∀ segs : List String, segs ≠ [] →
      ∃ es₁, addLeafAux [] segs b = .ok es₁ := by
  intro segs
  induction segs with
  | nil => intro h; exact absurd rfl h
  | cons seg rest ih =>
    intro _
    cases rest with
    | nil => exact ⟨insertEntry [] seg (.blob b.hash b.size), by simp [addLeafAux]⟩
    | cons r rs =>
      obtain ⟨es₁, hes⟩ := ih (by simp)
      exact ⟨insertEntry [] seg (.tree es₁),
        by simp only [addLeafAux, lookupEntry, hes]⟩

lemma addLeafAux_error_invalidPath (b : Blob) :
    ∀ (segs : List String) (entries : List (String × Node)) (e : Err),
      addLeafAux entries segs b = .error e → e = .invalidPath := by
  intro segs
  induction segs with
  | nil =>
    intro entries e h
    simp only [addLeafAux] at h
    cases h
    rfl
  | cons seg rest ih =>
    intro entries e h
    cases rest with
    | nil => simp [addLeafAux] at h
    | cons r rs =>
      simp only [addLeafAux] at h
      cases hl : lookupEntry entries seg with
      | none =>
        simp only [hl] at h
        cases ha : addLeafAux [] (r :: rs) b with
        | error e₁ =>
          simp only [ha] at h
          have := ih [] e₁ ha
          cases h
          exact this
        | ok es₁ => simp only [ha] at h; exact Except.noConfusion h
      | some node =>
        cases node with
        | blob bh bs =>
          simp only [hl] at h
          cases h
          rfl
        | tree es =>
          simp only [hl] at h
          cases ha : addLeafAux es (r :: rs) b with
          | error e₁ =>
            simp only [ha] at h
            have := ih es e₁ ha
            cases h
            exact this
          | ok es₁ => simp only [ha] at h; exact Except.noConfusion h

lemma addLeafAux_error_iff (b : Blob) :
    ∀ (segs : List String) (entries : List (String × Node)),
      (addLeafAux entries segs b = .error .invalidPath ↔
        (segs = [] ∨ descendsIntoBlob entries segs = true)) := by
  intro segs
  induction segs with
  | nil => intro entries; simp [addLeafAux, descendsIntoBlob]
  | cons seg rest ih =>
    intro entries
    cases rest with
    | nil => simp [addLeafAux, descendsIntoBlob]
    | cons r rs =>
      cases hl : lookupEntry entries seg with
      | none =>
        obtain ⟨es₁, hes⟩ := addLeafAux_nil_ok b (r :: rs) (by simp)
        simp [addLeafAux, hl, hes, descendsIntoBlob]
      | some node =>
        cases node with
        | blob bh bs => simp [addLeafAux, hl, descendsIntoBlob]
        | tree es =>
          cases ha : addLeafAux es (r :: rs) b with
          | error e₁ =>
            have he : e₁ = .invalidPath := addLeafAux_error_invalidPath b _ es e₁ ha
            subst he
            have hd : descendsIntoBlob es (r :: rs) = true := by
              rcases (ih es).mp ha with h | h
              · exact absurd h (by simp)
              · exact h
            simp [addLeafAux, hl, ha, descendsIntoBlob, hd]
          | ok es₁ =>
            have hd : descendsIntoBlob es (r :: rs) = false := by
              by_contra hc
              have hct : descendsIntoBlob es (r :: rs) = true := by
                simpa using hc
              have hcontra := (ih es).mpr (Or.inr hct)
              rw [ha] at hcontra
              exact Except.noConfusion hcontra
            simp [addLeafAux, hl, ha, descendsIntoBlob, hd]

lemma assocRef_setRef (i : Nat) (h : List Nat) :
    ∀ (refs : List (Nat × Ref)) (ref : Ref), assocRef refs i = some ref →
      assocRef (setRef refs i h) i = some { ref with commitHash := h } := by
  intro refs
  induction refs with
  | nil => intro ref hr; simp [assocRef] at hr
  | cons hd rest ih =>
    obtain ⟨k, r⟩ := hd
    intro ref hr
    by_cases hk : k = i
    · subst hk
      simp [assocRef] at hr
      subst hr
      simp [setRef, assocRef]
    · simp only [assocRef, if_neg hk] at hr
      simp only [setRef, if_neg hk, assocRef, if_neg hk]
      exact ih ref hr

/-! ### Claim theorems -/

/-- C1: `AddCommit` is atomic with respect to the reference.  For the
publication phase run against any state: a failed commit persist leaves the
whole state (in particular the ref) unchanged and fails; when the ref's
stored tip at update time differs from the observed tip, the call fails
`Conflict` and the refs are unchanged; a successful call has persisted the
commit object under its hash and moved the ref to that hash; and the refs
change only on a successful call, i.e. only after a successful persist. -/
theorem addCommit_write_before_publish (persistOk : Bool) (w : World)
    (p : PendingCommit) :
    ((addCommitPublish false w p).1 = w ∧
      (addCommitPublish false w p).2 = .error .putFailed) ∧
    (∀ ref, assocRef w.refs p.refID = some ref →
      ref.commitHash ≠ p.observedTip →
      (addCommitPublish true w p).1.refs = w.refs ∧
      (addCommitPublish true w p).2 = .error .conflict) ∧
    (∀ w₁ c, addCommitPublish persistOk w p = (w₁, .ok c) →
      persistOk = true ∧ c = p.commit ∧
      assocObj w₁.objects (commitHash c) = some c ∧
      ∃ ref, assocRef w₁.refs p.refID = some ref ∧
        ref.commitHash = commitHash c) ∧
    ((addCommitPublish persistOk w p).1.refs ≠ w.refs →
      ∃ c, (addCommitPublish persistOk w p).2 = .ok c ∧
        assocObj (addCommitPublish persistOk w p).1.objects (commitHash c) =
          some c) := by
  refine ⟨⟨by simp [addCommitPublish], by simp [addCommitPublish]⟩, ?_, ?_, ?_⟩
  · intro ref hr hne
    constructor <;> simp [addCommitPublish, hr, hne]
  · intro w₁ c h
    cases persistOk with
    | false =>
      simp only [addCommitPublish, Bool.false_eq_true, if_false] at h
      exact absurd (congrArg Prod.snd h) (by simp)
    | true =>
      simp only [addCommitPublish, if_true] at h
      cases hr : assocRef w.refs p.refID with
      | none =>
        simp only [hr] at h
        exact absurd (congrArg Prod.snd h) (by simp)
      | some ref =>
        simp only [hr] at h
        by_cases ht : ref.commitHash = p.observedTip
        · simp only [ht, if_pos rfl] at h
          obtain ⟨hw, hc⟩ := Prod.mk.injEq .. ▸ h
          have hc : c = p.commit := by simpa using hc.symm
          subst hc
          refine ⟨rfl, rfl, ?_, ?_⟩
          · rw [← hw]; simp [putObj, assocObj]
          · rw [← hw]
            exact ⟨{ ref with commitHash := commitHash p.commit },
              assocRef_setRef p.refID (commitHash p.commit) w.refs ref hr, rfl⟩
        · simp only [if_neg ht] at h
          exact absurd (congrArg Prod.snd h) (by simp)
  · intro hchanged
    cases persistOk with
    | false => simp [addCommitPublish] at hchanged
    | true =>
      cases hr : assocRef w.refs p.refID with
      | none =>
        exact absurd (by simp [addCommitPublish, hr]) hchanged
      | some ref =>
        by_cases ht : ref.commitHash = p.observedTip
        · refine ⟨p.commit, ?_, ?_⟩ <;>
            simp [addCommitPublish, hr, ht, putObj, assocObj]
        · exact absurd (by simp [addCommitPublish, hr, ht]) hchanged

/-- The ref, state and pending commit of the C1 witness: the stored tip
`[5]` differs from the observed tip `[9]`. -/
def conflictRef : Ref := { name := "main", repositoryID := 1, commitHash := [5] }

def conflictWorld : World := { wips := [], refs := [(7, conflictRef)], objects := [] }

def conflictPending : PendingCommit :=
  { refID := 7, observedTip := [9],
    commit := { root := EmptyRoot, parent := [9], author := 1, message := "m",
                timestamp := 3 } }

/-- Witness for C1 at a concrete state: a publish whose stored tip differs
from the observed tip fails with `Conflict`. -/
theorem addCommit_write_before_publish_witness :
    (addCommitPublish true conflictWorld conflictPending).2 = .error .conflict := by
  have h := (addCommit_write_before_publish true conflictWorld
    conflictPending).2.1 conflictRef (by simp [conflictWorld, conflictPending, assocRef]) (by decide)
  exact h.2

/-- C2: for the fixture trees A = {a.txt:"a", b/c.txt:"c", b/e.txt:"e1"} and
B = {a.txt:"a", b/d.txt:"d", b/e.txt:"e2"}, built with `AddLeaf` from
`EmptyRoot` and committed with `AddCommit` on refs `feat/base` and
`feat/merge`, `DiffCommit` on the two commit hashes succeeds and returns
exactly the 3 changes Removed b/c.txt, Added b/d.txt, Modified b/e.txt. -/
theorem diffScenario_three_changes :
    diffScenario =
      .ok [{ path := "b/c.txt", kind := .removed },
           { path := "b/d.txt", kind := .added },
           { path := "b/e.txt", kind := .modified }] := by
  simp [diffScenario, makeRoot, makeRoot.go, scenarioWorld, AddCommit,
    addCommitObserve, addCommitPublish, AddLeaf, addLeafAux, insertEntry,
    lookupEntry, splitPath, splitPathAux, strLt, strLtAux, blobOf, strHash,
    assocWip, assocRef, assocObj, putObj, setRef, commitHash, DiffCommit,
    diffNode, diffEntries, diffChild, nodeHash, entriesHash, EmptyRoot]

/-- C3: `DiffCommit(h, h)` returns an empty change set for every commit hash
`h` present in the object store, and more generally the diff recursion
emits no changes whenever the two compared roots have equal hashes. -/
theorem diffCommit_zero_diff (objects : List (List Nat × Commit))
    (h : List Nat) (c : Commit) (hc : assocObj objects h = some c) :
    DiffCommit objects h h = .ok ([] : List Change) ∧
    ∀ a b : Node, nodeHash a = nodeHash b → diffNode a b = [] := by
  constructor
  · simp [DiffCommit, hc, diffNode]
  · intro a b hab
    simp [diffNode, hab]

/-- The commit of the C3 witness store. -/
def zeroDiffCommit : Commit :=
  { root := .tree [("f", .blob [4] 2)], parent := [], author := 0,
    message := "w", timestamp := 0 }

/-- Witness for C3: on a store holding `zeroDiffCommit` under hash `[3]`,
diffing `[3]` against itself yields the empty change set. -/
theorem diffCommit_zero_diff_witness :
    DiffCommit [([3], zeroDiffCommit)] [3] [3] = .ok ([] : List Change) :=
  (diffCommit_zero_diff [([3], zeroDiffCommit)] [3] zeroDiffCommit
    (by simp [assocObj])).1

/-- C4: a child present under the same name in both trees whose hashes
differ and at least one of which is a blob — including a blob-vs-tree type
change — yields the single record `Modified(path)`, never a Removed+Added
pair; and end-to-end, `DiffCommit` on the `typeChangeStore` commits, whose
roots differ only by the blob-vs-tree change at path `p`, returns exactly
`[Modified p]`. -/
theorem diffChild_type_change (p : String) (a b : Node)
    (hne : nodeHash a ≠ nodeHash b)
    (hblob : (∃ h s, a = .blob h s) ∨ (∃ h s, b = .blob h s)) :
    diffChild p a b = [{ path := p, kind := .modified }] ∧
    DiffCommit typeChangeStore [0] [1] =
      .ok [{ path := "p", kind := .modified }] := by
  constructor
  · rcases hblob with ⟨hh, hs, rfl⟩ | ⟨hh, hs, rfl⟩
    · cases b <;> simp [diffChild, hne]
    · cases a <;> simp [diffChild, hne]
  · simp [DiffCommit, typeChangeStore, typeChangeBase, typeChangeMerge,
      assocObj, diffNode, diffEntries, diffChild, nodeHash, entriesHash,
      strLt, strLtAux]

/-- Witness for C4: a blob-vs-tree type change at path `p` is one
`Modified(p)` record. -/
theorem diffChild_type_change_witness :
    diffChild "p" (.blob [1] 1) (.tree []) =
      [{ path := "p", kind := .modified }] :=
  (diffChild_type_change "p" (.blob [1] 1) (.tree [])
    (by decide) (Or.inl ⟨[1], 1, rfl⟩)).1

/-- C5: `DiffCommit` with at least one hash absent from the object store
returns `NotFound` and no change list. -/
theorem diffCommit_notFound (objects : List (List Nat × Commit))
    (h₁ h₂ : List Nat)
    (habs : assocObj objects h₁ = none ∨ assocObj objects h₂ = none) :
    DiffCommit objects h₁ h₂ = .error .notFound := by
  rcases habs with h | h
  · simp [DiffCommit, h]
  · cases hb : assocObj objects h₁ <;> simp [DiffCommit, h, hb]

/-- Witness for C5: diffing over the empty store is `NotFound`. -/
theorem diffCommit_notFound_witness :
    DiffCommit [] [0] [0] = .error .notFound :=
  diffCommit_notFound [] [0] [0] (Or.inl rfl)

/-- C6: `AddLeaf` is deterministic and idempotent — two runs from the same
inputs produce roots of identical hash, and re-inserting the same
(path, blob) into the resulting root returns that very root (hence the same
root hash). -/
theorem addLeaf_deterministic_idempotent (root r : Node) (path : String)
    (b : Blob) (h : AddLeaf root path b = .ok r) :
    (∀ r₂, AddLeaf root path b = .ok r₂ → nodeHash r₂ = nodeHash r) ∧
    AddLeaf r path b = .ok r := by
  constructor
  · intro r₂ h₂
    rw [h] at h₂
    injection h₂ with he
    rw [he]
  · cases root with
    | blob bh bs => simp [AddLeaf] at h
    | tree es =>
      simp only [AddLeaf] at h
      cases ha : addLeafAux es (splitPath path) b with
      | error e =>
        simp only [ha] at h
        exact Except.noConfusion h
      | ok es₁ =>
        simp only [ha] at h
        injection h with he
        subst he
        simp only [AddLeaf, addLeafAux_idem b (splitPath path) es es₁ ha]

/-- Witness for C6: re-inserting `a/b` into the root just built from it is a
no-op returning the identical root. -/
theorem addLeaf_deterministic_idempotent_witness :
    AddLeaf (.tree [("a", .tree [("b", .blob [1] 1)])]) "a/b"
        { hash := [1], size := 1 } =
      .ok (.tree [("a", .tree [("b", .blob [1] 1)])]) :=
  (addLeaf_deterministic_idempotent EmptyRoot
    (.tree [("a", .tree [("b", .blob [1] 1)])]) "a/b"
    { hash := [1], size := 1 } (by rfl)).2

/-- C7: `AddLeaf` fails with `InvalidPath` exactly when some non-terminal
segment of the path resolves to a blob entry in the current tree (a descent
into a file), and `InvalidPath` is the only error it can return; on an
error no new root is returned. -/
theorem addLeaf_invalidPath_iff (entries : List (String × Node))
    (path : String) (b : Blob) :
    (AddLeaf (.tree entries) path b = .error .invalidPath ↔
      descendsIntoBlob entries (splitPath path) = true) ∧
    (∀ e, AddLeaf (.tree entries) path b = .error e → e = .invalidPath) := by
  constructor
  · constructor
    · intro h
      simp only [AddLeaf] at h
      cases ha : addLeafAux entries (splitPath path) b with
      | error e =>
        simp only [ha] at h
        injection h with he
        subst he
        rcases (addLeafAux_error_iff b (splitPath path) entries).mp ha with
          hnil | hd
        · exact absurd hnil (splitPath_ne_nil path)
        · exact hd
      | ok es₁ =>
        simp only [ha] at h
        exact Except.noConfusion h
    · intro hd
      have ha := (addLeafAux_error_iff b (splitPath path) entries).mpr
        (Or.inr hd)
      simp only [AddLeaf, ha]
  · intro e he
    simp only [AddLeaf] at he
    cases ha : addLeafAux entries (splitPath path) b with
    | error e₁ =>
      simp only [ha] at he
      injection he with he₁
      subst he₁
      exact addLeafAux_error_invalidPath b (splitPath path) entries _ ha
    | ok es₁ =>
      simp only [ha] at he
      exact Except.noConfusion he

/-- Witness for C7: inserting `b/c.txt` when `b` is a blob fails with
`InvalidPath`. -/
theorem addLeaf_invalidPath_iff_witness :
    AddLeaf (.tree [("b", .blob [1] 1)]) "b/c.txt" { hash := [2], size := 1 } =
      .error .invalidPath :=
  (addLeaf_invalidPath_iff [("b", .blob [1] 1)] "b/c.txt"
    { hash := [2], size := 1 }).1.mpr (by decide)

/-- C8: `TagRepo.Insert` returns the identity-mismatch error and performs no
insert when the tag's repository id differs from the repo's; when they are
equal the tag row is inserted and the tag is returned. -/
theorem tagRepo_insert_identity (t : TagRepo) (tag : Tag) :
    (tag.repositoryID ≠ t.repositoryID →
      TagRepo.Insert t tag = (t, .error .repoIDMisMatch)) ∧
    (tag.repositoryID = t.repositoryID →
      TagRepo.Insert t tag = ({ t with rows := t.rows ++ [tag] }, .ok tag)) := by
  constructor <;> intro h <;> simp [TagRepo.Insert, h]

/-- The tag of the C8 witness, bound to repository 2. -/
def tagFixture : Tag :=
  { hash := [1], repositoryID := 2, name := "v1", target := [3], message := "" }

/-- Witness for C8: inserting a tag for repository 2 into the repo
constructed for repository 1 fails with the mismatch error and leaves the
table unchanged. -/
theorem tagRepo_insert_identity_witness :
    TagRepo.Insert { repositoryID := 1, rows := [] } tagFixture =
      ({ repositoryID := 1, rows := [] }, .error .repoIDMisMatch) :=
  (tagRepo_insert_identity { repositoryID := 1, rows := [] } tagFixture).1
    (by decide)

/-- C9: `RepositoryRepo.UpdateByID` modifies at most the description column
of the row whose id matches the parameters' id: every other column of every
row is unchanged, and a row with a different id is unchanged entirely. -/
theorem updateByID_frame (rows : List Repository) (p : UpdateRepoParams)
    (i : Nat) (r r₁ : Repository) (hr : rows[i]? = some r)
    (hr₁ : (RepositoryRepo.UpdateByID rows p)[i]? = some r₁) :
    r₁.id = r.id ∧ r₁.name = r.name ∧ r₁.ownerID = r.ownerID ∧
    r₁.head = r.head ∧ r₁.usePublicStorage = r.usePublicStorage ∧
    r₁.storageAdapterParams = r.storageAdapterParams ∧
    r₁.storageNamespace = r.storageNamespace ∧
    r₁.creatorID = r.creatorID ∧ r₁.createdAt = r.createdAt ∧
    r₁.updatedAt = r.updatedAt ∧ (r.id ≠ p.id → r₁ = r) := by
  have hx : r₁ =
      if r.id = p.id then { r with description := p.description } else r := by
    rw [RepositoryRepo.UpdateByID, List.getElem?_map, hr] at hr₁
    simpa using hr₁.symm
  by_cases hid : r.id = p.id
  · rw [if_pos hid] at hx
    subst hx
    exact ⟨rfl, rfl, rfl, rfl, rfl, rfl, rfl, rfl, rfl, rfl,
      fun hne => absurd hid hne⟩
  · rw [if_neg hid] at hx
    subst hx
    exact ⟨rfl, rfl, rfl, rfl, rfl, rfl, rfl, rfl, rfl, rfl, fun _ => rfl⟩

/-- The repository row of the C9 witness. -/
def repoFixture : Repository :=
  { id := 5, name := "repo", ownerID := 9, head := "main",
    usePublicStorage := false, storageAdapterParams := "",
    storageNamespace := "ns", description := none, creatorID := 9,
    createdAt := 1, updatedAt := 2 }

/-- The C9 witness row after the update: only the description changed. -/
def repoFixtureUpdated : Repository := { repoFixture with description := some "x" }

/-- Witness for C9: updating row 5's description leaves its name and owner
untouched. -/
theorem updateByID_frame_witness :
    repoFixtureUpdated.name = repoFixture.name ∧
    repoFixtureUpdated.ownerID = repoFixture.ownerID := by
  have h := updateByID_frame [repoFixture]
    { id := 5, description := some "x" } 0 repoFixture repoFixtureUpdated
    (by decide) (by decide)
  exact ⟨h.2.1, h.2.2.1⟩

/-- C10: `RepositoryRepo.Delete` filters only on non-zero parameters; the
returned count always equals the number of rows deleted, and with the
zero-valued parameters no filter applies, so every row is deleted and the
count is the full table size. -/
theorem delete_zero_params_deletes_all (rows : List Repository)
    (p : DeleteRepoParams) :
    (RepositoryRepo.Delete rows p).2 + (RepositoryRepo.Delete rows p).1.length
        = rows.length ∧
    RepositoryRepo.Delete rows { id := 0, ownerID := 0, name := none } =
      ([], rows.length) := by
  constructor
  · simp only [RepositoryRepo.Delete]
    exact (List.length_eq_length_filter_add (fun r => matchesDelete p r)).symm
  · simp [RepositoryRepo.Delete, matchesDelete]
